import Mathlib

/-!
Verification of the flag-closure resolution logic of
`include/mbedtls/config_adjust_legacy_crypto.h`.

The header is a table of implication rules over boolean configuration
flags, written as C preprocessor directives: each `#if P … #define F`
block states "if predicate P holds over the current flag set, then flag
F is active".  We embed the flag vocabulary, the predicates and the rule
table directly from the source, and the closure resolver (the
fixed-point engine of spec §4.2, whose role is played by the
preprocessor and is not itself part of the source tree) from the
specification.
-/

namespace ConfigAdjust

/-- The flag vocabulary: every macro name read or defined by
`config_adjust_legacy_crypto.h`. -/
inductive Flag where
  | MBEDTLS_MD_C
  | MBEDTLS_MD_LIGHT
  | MBEDTLS_ECJPAKE_C
  | MBEDTLS_PEM_PARSE_C
  | MBEDTLS_ENTROPY_C
  | MBEDTLS_PK_C
  | MBEDTLS_PKCS12_C
  | MBEDTLS_RSA_C
  | MBEDTLS_SSL_TLS_C
  | MBEDTLS_X509_USE_C
  | MBEDTLS_X509_CREATE_C
  | MBEDTLS_ECP_C
  | MBEDTLS_PK_PARSE_EC_EXTENDED
  | MBEDTLS_PK_PARSE_EC_COMPRESSED
  | MBEDTLS_PSA_BUILTIN_KEY_TYPE_ECC_KEY_PAIR_DERIVE
  | MBEDTLS_ECP_LIGHT
  | MBEDTLS_PK_PARSE_C
  | MBEDTLS_USE_PSA_CRYPTO
  | PSA_WANT_ALG_ECDH
  | MBEDTLS_ECDH_C
  | MBEDTLS_CAN_ECDH
  | MBEDTLS_ECDSA_C
  | PSA_WANT_ALG_ECDSA
  | PSA_WANT_KEY_TYPE_ECC_KEY_PAIR_BASIC
  | PSA_WANT_KEY_TYPE_ECC_PUBLIC_KEY
  | MBEDTLS_PK_CAN_ECDSA_SIGN
  | MBEDTLS_PK_CAN_ECDSA_VERIFY
  | MBEDTLS_PK_CAN_ECDSA_SOME
  | MBEDTLS_PSA_CRYPTO_C
  | MBEDTLS_PSA_CRYPTO_CLIENT
  | MBEDTLS_PK_WRITE_C
  | MBEDTLS_PK_HAVE_ECC_KEYS
  deriving DecidableEq, Repr

open Flag

/-- The complete (finite) flag vocabulary as a list. -/
def allFlags : List Flag :=
  [MBEDTLS_MD_C, MBEDTLS_MD_LIGHT, MBEDTLS_ECJPAKE_C, MBEDTLS_PEM_PARSE_C,
   MBEDTLS_ENTROPY_C, MBEDTLS_PK_C, MBEDTLS_PKCS12_C, MBEDTLS_RSA_C,
   MBEDTLS_SSL_TLS_C, MBEDTLS_X509_USE_C, MBEDTLS_X509_CREATE_C,
   MBEDTLS_ECP_C, MBEDTLS_PK_PARSE_EC_EXTENDED, MBEDTLS_PK_PARSE_EC_COMPRESSED,
   MBEDTLS_PSA_BUILTIN_KEY_TYPE_ECC_KEY_PAIR_DERIVE, MBEDTLS_ECP_LIGHT,
   MBEDTLS_PK_PARSE_C, MBEDTLS_USE_PSA_CRYPTO, PSA_WANT_ALG_ECDH,
   MBEDTLS_ECDH_C, MBEDTLS_CAN_ECDH, MBEDTLS_ECDSA_C, PSA_WANT_ALG_ECDSA,
   PSA_WANT_KEY_TYPE_ECC_KEY_PAIR_BASIC, PSA_WANT_KEY_TYPE_ECC_PUBLIC_KEY,
   MBEDTLS_PK_CAN_ECDSA_SIGN, MBEDTLS_PK_CAN_ECDSA_VERIFY,
   MBEDTLS_PK_CAN_ECDSA_SOME, MBEDTLS_PSA_CRYPTO_C, MBEDTLS_PSA_CRYPTO_CLIENT,
   MBEDTLS_PK_WRITE_C, MBEDTLS_PK_HAVE_ECC_KEYS]

theorem mem_allFlags (f : Flag) : f ∈ allFlags := by
  cases f <;> simp [allFlags]

theorem allFlags_nodup : allFlags.Nodup := by decide

instance : Fintype Flag := ⟨⟨allFlags, allFlags_nodup⟩, mem_allFlags⟩

/-- A predicate over flag activation states: the boolean expression of a
`#if` line, built from flag tests with `&&`, `||` and `!` (spec §3). -/
inductive Pred where
  | flag : Flag → Pred
  | and : Pred → Pred → Pred
  | or : Pred → Pred → Pred
  | not : Pred → Pred
  deriving DecidableEq, Repr

/-- A flag set is the set of currently active flags (every flag not in
the set is inactive). -/
abbrev FlagSet := List Flag

/-- Evaluate a predicate against a flag set: `defined(F)` is membership. -/
def Pred.eval (s : FlagSet) : Pred → Bool
  | .flag f => decide (f ∈ s)
  | .and p q => p.eval s && q.eval s
  | .or p q => p.eval s || q.eval s
  | .not p => !p.eval s

/-- A rule pairs a predicate with the single flag it activates
(one `#define` line under a `#if`). -/
structure Rule where
  pred : Pred
  concl : Flag
  deriving DecidableEq, Repr

/-- The rule table of `config_adjust_legacy_crypto.h`, in textual order.
A `#if` block with several `#define` lines yields one rule per defined
flag; the `#if !USE_PSA / #else` block at lines 102–116 yields one rule
per branch and consequent, the branch condition conjoined into the
predicate. -/
def rules : List Rule :=
  [ -- lines 40-42: #if defined(MBEDTLS_MD_C) → MBEDTLS_MD_LIGHT
    ⟨.flag MBEDTLS_MD_C, MBEDTLS_MD_LIGHT⟩,
    -- lines 47-57: big OR → MBEDTLS_MD_LIGHT
    ⟨.or (.flag MBEDTLS_ECJPAKE_C)
      (.or (.flag MBEDTLS_PEM_PARSE_C)
        (.or (.flag MBEDTLS_ENTROPY_C)
          (.or (.flag MBEDTLS_PK_C)
            (.or (.flag MBEDTLS_PKCS12_C)
              (.or (.flag MBEDTLS_RSA_C)
                (.or (.flag MBEDTLS_SSL_TLS_C)
                  (.or (.flag MBEDTLS_X509_USE_C)
                    (.flag MBEDTLS_X509_CREATE_C)))))))),
      MBEDTLS_MD_LIGHT⟩,
    -- lines 75-80: OR of four flags → MBEDTLS_ECP_LIGHT
    ⟨.or (.flag MBEDTLS_ECP_C)
      (.or (.flag MBEDTLS_PK_PARSE_EC_EXTENDED)
        (.or (.flag MBEDTLS_PK_PARSE_EC_COMPRESSED)
          (.flag MBEDTLS_PSA_BUILTIN_KEY_TYPE_ECC_KEY_PAIR_DERIVE))),
      MBEDTLS_ECP_LIGHT⟩,
    -- lines 87-89: PK_PARSE_C && ECP_C → PK_PARSE_EC_COMPRESSED
    ⟨.and (.flag MBEDTLS_PK_PARSE_C) (.flag MBEDTLS_ECP_C),
      MBEDTLS_PK_PARSE_EC_COMPRESSED⟩,
    -- lines 93-96: (USE_PSA && PSA_WANT_ALG_ECDH) || (!USE_PSA && ECDH_C)
    ⟨.or (.and (.flag MBEDTLS_USE_PSA_CRYPTO) (.flag PSA_WANT_ALG_ECDH))
      (.and (.not (.flag MBEDTLS_USE_PSA_CRYPTO)) (.flag MBEDTLS_ECDH_C)),
      MBEDTLS_CAN_ECDH⟩,
    -- lines 102-106: !USE_PSA branch, ECDSA_C → SIGN and VERIFY
    ⟨.and (.not (.flag MBEDTLS_USE_PSA_CRYPTO)) (.flag MBEDTLS_ECDSA_C),
      MBEDTLS_PK_CAN_ECDSA_SIGN⟩,
    ⟨.and (.not (.flag MBEDTLS_USE_PSA_CRYPTO)) (.flag MBEDTLS_ECDSA_C),
      MBEDTLS_PK_CAN_ECDSA_VERIFY⟩,
    -- lines 107-116: USE_PSA branch
    ⟨.and (.flag MBEDTLS_USE_PSA_CRYPTO)
      (.and (.flag PSA_WANT_ALG_ECDSA)
        (.flag PSA_WANT_KEY_TYPE_ECC_KEY_PAIR_BASIC)),
      MBEDTLS_PK_CAN_ECDSA_SIGN⟩,
    ⟨.and (.flag MBEDTLS_USE_PSA_CRYPTO)
      (.and (.flag PSA_WANT_ALG_ECDSA)
        (.flag PSA_WANT_KEY_TYPE_ECC_PUBLIC_KEY)),
      MBEDTLS_PK_CAN_ECDSA_VERIFY⟩,
    -- lines 118-120: VERIFY || SIGN → SOME
    ⟨.or (.flag MBEDTLS_PK_CAN_ECDSA_VERIFY) (.flag MBEDTLS_PK_CAN_ECDSA_SIGN),
      MBEDTLS_PK_CAN_ECDSA_SOME⟩,
    -- lines 125-127: PSA_CRYPTO_C → PSA_CRYPTO_CLIENT
    ⟨.flag MBEDTLS_PSA_CRYPTO_C, MBEDTLS_PSA_CRYPTO_CLIENT⟩,
    -- lines 132-136: PSA_CRYPTO_C && RSA_C → PK_C, PK_WRITE_C, PK_PARSE_C
    ⟨.and (.flag MBEDTLS_PSA_CRYPTO_C) (.flag MBEDTLS_RSA_C), MBEDTLS_PK_C⟩,
    ⟨.and (.flag MBEDTLS_PSA_CRYPTO_C) (.flag MBEDTLS_RSA_C), MBEDTLS_PK_WRITE_C⟩,
    ⟨.and (.flag MBEDTLS_PSA_CRYPTO_C) (.flag MBEDTLS_RSA_C), MBEDTLS_PK_PARSE_C⟩,
    -- lines 141-144: ECP_C || (USE_PSA && PSA_WANT_KEY_TYPE_ECC_PUBLIC_KEY)
    ⟨.or (.flag MBEDTLS_ECP_C)
      (.and (.flag MBEDTLS_USE_PSA_CRYPTO)
        (.flag PSA_WANT_KEY_TYPE_ECC_PUBLIC_KEY)),
      MBEDTLS_PK_HAVE_ECC_KEYS⟩ ]

/-- Modelled from the spec: one rule application of the closure resolver
(§4.2) — "evaluate its predicate against the current Flag Set; if true
and the consequent flag is inactive, activate it".  The resolver itself
is not in the source tree (the C preprocessor plays that role); only the
rule table above comes from the source. -/
def applyRule (s : FlagSet) (r : Rule) : FlagSet :=
  if r.pred.eval s = true ∧ ¬ r.concl ∈ s then r.concl :: s else s

/-- Modelled from the spec: one full pass of the resolver over a rule
table, each rule seeing the set as updated by the earlier rules of the
pass (§4.2). -/
def pass (L : List Rule) (s : FlagSet) : FlagSet :=
  L.foldl applyRule s

/-- Modelled from the spec: the fixed-point iteration of §4.2 with the
defensive pass bound of §7 — repeat full passes until a pass activates
no new flag (no length change means no change at all), giving up after
the supplied number of passes. -/
def resolveAux (L : List Rule) : Nat → FlagSet → FlagSet
  | 0, s => s
  | n + 1, s =>
    let t := pass L s
    if t.length = s.length then s else resolveAux L n t

/-- Modelled from the spec: the defensive upper bound on passes of §7,
one more than the size of the flag vocabulary. -/
def maxPasses : Nat := allFlags.length + 1

/-- Modelled from the spec: resolution with an arbitrary rule table
(used to state order-independence over permutations of `rules`). -/
def resolveList (L : List Rule) (b : FlagSet) : FlagSet :=
  resolveAux L maxPasses b

/-- Modelled from the spec: `resolve(base)` of §4.2 — the closure of the
base set under the rule table of the source header. -/
def resolve (b : FlagSet) : FlagSet :=
  resolveList rules b

/-! ### Basic properties of one rule application -/

theorem applyRule_fires {s : FlagSet} {r : Rule}
    (he : r.pred.eval s = true) (hn : ¬ r.concl ∈ s) :
    applyRule s r = r.concl :: s := by
  simp only [applyRule]
  rw [if_pos ⟨he, hn⟩]

theorem applyRule_eq_or (s : FlagSet) (r : Rule) :
    applyRule s r = s ∨
      (r.pred.eval s = true ∧ ¬ r.concl ∈ s ∧ applyRule s r = r.concl :: s) := by
  by_cases h : r.pred.eval s = true ∧ ¬ r.concl ∈ s
  · exact Or.inr ⟨h.1, h.2, applyRule_fires h.1 h.2⟩
  · left
    simp only [applyRule]
    rw [if_neg h]

theorem mem_applyRule_of_mem {s : FlagSet} {r : Rule} {f : Flag} (hf : f ∈ s) :
    f ∈ applyRule s r := by
  rcases applyRule_eq_or s r with h | ⟨_, _, h⟩ <;> rw [h]
  · exact hf
  · exact List.mem_cons_of_mem _ hf

theorem mem_applyRule_inv {s : FlagSet} {r : Rule} {f : Flag}
    (hf : f ∈ applyRule s r) :
    f ∈ s ∨ (f = r.concl ∧ r.pred.eval s = true) := by
  rcases applyRule_eq_or s r with h | ⟨he, _, h⟩ <;> rw [h] at hf
  · exact Or.inl hf
  · rcases List.mem_cons.mp hf with h' | h'
    · exact Or.inr ⟨h', he⟩
    · exact Or.inl h'

theorem length_applyRule (s : FlagSet) (r : Rule) :
    s.length ≤ (applyRule s r).length := by
  rcases applyRule_eq_or s r with h | ⟨_, _, h⟩
  · rw [h]
  · rw [h]
    exact Nat.le_succ _

theorem applyRule_eq_of_length {s : FlagSet} {r : Rule}
    (h : (applyRule s r).length = s.length) : applyRule s r = s := by
  rcases applyRule_eq_or s r with h' | ⟨_, _, h'⟩
  · exact h'
  · rw [h'] at h
    simp at h

/-! ### Basic properties of a full pass -/

theorem pass_nil (s : FlagSet) : pass [] s = s := rfl

theorem pass_cons (r : Rule) (L : List Rule) (s : FlagSet) :
    pass (r :: L) s = pass L (applyRule s r) := rfl

theorem mem_pass_of_mem (L : List Rule) :
    ∀ {s : FlagSet} {f : Flag}, f ∈ s → f ∈ pass L s := by
  induction L with
  | nil => intro s f hf; exact hf
  | cons r L ih =>
      intro s f hf
      rw [pass_cons]
      exact ih (mem_applyRule_of_mem hf)

theorem length_pass (L : List Rule) :
    ∀ s : FlagSet, s.length ≤ (pass L s).length := by
  induction L with
  | nil => intro s; exact Nat.le_refl _
  | cons r L ih =>
      intro s
      rw [pass_cons]
      exact Nat.le_trans (length_applyRule s r) (ih (applyRule s r))

theorem pass_eq_of_length (L : List Rule) :
    ∀ {s : FlagSet}, (pass L s).length = s.length → pass L s = s := by
  induction L with
  | nil => intro s _; rfl
  | cons r L ih =>
      intro s h
      rw [pass_cons] at h ⊢
      have h1 : (applyRule s r).length = s.length :=
        Nat.le_antisymm (h ▸ length_pass L (applyRule s r)) (length_applyRule s r)
      rw [applyRule_eq_of_length h1] at h ⊢
      exact ih h

theorem pass_progress (L : List Rule) :
    ∀ {s : FlagSet}, (pass L s).length ≠ s.length →
      ∃ g, g ∈ pass L s ∧ ¬ g ∈ s := by
  induction L with
  | nil => intro s h; exact absurd rfl h
  | cons r L ih =>
      intro s h
      rcases applyRule_eq_or s r with heq | ⟨_, hn, heq⟩
      · rw [pass_cons, heq] at h ⊢
        exact ih h
      · refine ⟨r.concl, ?_, hn⟩
        rw [pass_cons, heq]
        exact mem_pass_of_mem L (List.mem_cons_self _ _)

/-! ### The termination measure: the finite set of active flags -/

/-- The set of active flags of a flag set, as a `Finset` over the
finite vocabulary. -/
def activeSet (s : FlagSet) : Finset Flag :=
  Finset.univ.filter (fun f => f ∈ s)

theorem activeSet_card_le (s : FlagSet) :
    (activeSet s).card ≤ allFlags.length := by
  have h := Finset.card_filter_le (Finset.univ : Finset Flag) (fun f => f ∈ s)
  simpa [activeSet] using h

theorem activeSet_card_lt {s t : FlagSet} (hsub : ∀ f ∈ s, f ∈ t)
    {g : Flag} (hgt : g ∈ t) (hgs : ¬ g ∈ s) :
    (activeSet s).card < (activeSet t).card := by
  apply Finset.card_lt_card
  constructor
  · intro f hf
    simp only [activeSet, Finset.mem_filter, Finset.mem_univ, true_and] at hf ⊢
    exact hsub f hf
  · intro hts
    have := hts (a := g) (by simp [activeSet, hgt])
    simp only [activeSet, Finset.mem_filter, Finset.mem_univ, true_and] at this
    exact hgs this

/-! ### Termination and stability of the fixed-point iteration -/

theorem resolveAux_fixed (L : List Rule) :
    ∀ n : Nat, ∀ s : FlagSet, allFlags.length - (activeSet s).card < n →
      pass L (resolveAux L n s) = resolveAux L n s := by
  intro n
  induction n with
  | zero => intro s h; omega
  | succ n ih =>
      intro s h
      by_cases hl : (pass L s).length = s.length
      · have hfix := pass_eq_of_length L hl
        simp only [resolveAux]
        rw [if_pos hl]
        exact hfix
      · simp only [resolveAux]
        rw [if_neg hl]
        apply ih
        obtain ⟨g, hgt, hgs⟩ := pass_progress L hl
        have h1 : (activeSet s).card < (activeSet (pass L s)).card :=
          activeSet_card_lt (fun f hf => mem_pass_of_mem L hf) hgt hgs
        have h2 := activeSet_card_le (pass L s)
        omega

theorem maxPasses_big (s : FlagSet) :
    allFlags.length - (activeSet s).card < maxPasses :=
  Nat.lt_succ_of_le (Nat.sub_le _ _)

theorem pass_resolveList (L : List Rule) (b : FlagSet) :
    pass L (resolveList L b) = resolveList L b :=
  resolveAux_fixed L maxPasses b (maxPasses_big b)

theorem resolveAux_of_fixedpoint (L : List Rule) {s : FlagSet}
    (h : pass L s = s) : ∀ n, resolveAux L n s = s := by
  intro n
  cases n with
  | zero => rfl
  | succ n =>
      simp only [resolveAux]
      rw [if_pos (by rw [h])]

theorem mem_resolveAux_of_mem (L : List Rule) :
    ∀ n : Nat, ∀ {s : FlagSet} {f : Flag}, f ∈ s → f ∈ resolveAux L n s := by
  intro n
  induction n with
  | zero => intro s f hf; exact hf
  | succ n ih =>
      intro s f hf
      simp only [resolveAux]
      by_cases hl : (pass L s).length = s.length
      · rw [if_pos hl]; exact hf
      · rw [if_neg hl]
        exact ih (mem_pass_of_mem L hf)

theorem mem_resolveList_of_mem {L : List Rule} {b : FlagSet} {f : Flag}
    (hf : f ∈ b) : f ∈ resolveList L b :=
  mem_resolveAux_of_mem L maxPasses hf

theorem resolveAux_fuel (L : List Rule) :
    ∀ n m : Nat, ∀ s : FlagSet, allFlags.length - (activeSet s).card < n →
      n ≤ m → resolveAux L m s = resolveAux L n s := by
  intro n
  induction n with
  | zero => intro m s h; omega
  | succ n ih =>
      intro m s h hnm
      cases m with
      | zero => omega
      | succ m =>
          by_cases hl : (pass L s).length = s.length
          · simp only [resolveAux]
            rw [if_pos hl, if_pos hl]
          · simp only [resolveAux]
            rw [if_neg hl, if_neg hl]
            apply ih
            · obtain ⟨g, hgt, hgs⟩ := pass_progress L hl
              have h1 : (activeSet s).card < (activeSet (pass L s)).card :=
                activeSet_card_lt (fun f hf => mem_pass_of_mem L hf) hgt hgs
              have h2 := activeSet_card_le (pass L s)
              omega
            · omega

/-! ### Frame lemmas: a flag no rule concludes is never activated -/

theorem mem_applyRule_frame {s : FlagSet} {r : Rule} {f : Flag}
    (h : r.concl ≠ f) : f ∈ applyRule s r ↔ f ∈ s := by
  constructor
  · intro hf
    rcases mem_applyRule_inv hf with h' | ⟨h', _⟩
    · exact h'
    · exact absurd h'.symm h
  · exact mem_applyRule_of_mem

theorem mem_pass_frame {f : Flag} (L : List Rule)
    (h : ∀ r ∈ L, r.concl ≠ f) :
    ∀ s : FlagSet, f ∈ pass L s ↔ f ∈ s := by
  induction L with
  | nil => intro s; exact Iff.rfl
  | cons r L ih =>
      intro s
      rw [pass_cons, ih (fun r' hr' => h r' (List.mem_cons_of_mem _ hr')),
        mem_applyRule_frame (h r (List.mem_cons_self _ _))]

theorem mem_resolveAux_frame {f : Flag} (L : List Rule)
    (h : ∀ r ∈ L, r.concl ≠ f) :
    ∀ n : Nat, ∀ s : FlagSet, f ∈ resolveAux L n s ↔ f ∈ s := by
  intro n
  induction n with
  | zero => intro s; exact Iff.rfl
  | succ n ih =>
      intro s
      simp only [resolveAux]
      by_cases hl : (pass L s).length = s.length
      · rw [if_pos hl]
      · rw [if_neg hl, ih (pass L s), mem_pass_frame L h s]

/-! ### Monotone evaluation: negation only ever tests `MBEDTLS_USE_PSA_CRYPTO` -/

/-- A predicate applies negation only to the flag
`MBEDTLS_USE_PSA_CRYPTO` (true of every predicate of the table). -/
def negOnlyUse : Pred → Bool
  | .flag _ => true
  | .and p q => negOnlyUse p && negOnlyUse q
  | .or p q => negOnlyUse p && negOnlyUse q
  | .not p => decide (p = .flag MBEDTLS_USE_PSA_CRYPTO)

theorem rules_negOnlyUse : ∀ r ∈ rules, negOnlyUse r.pred = true := by decide

theorem usePsa_not_concl : ∀ r ∈ rules, r.concl ≠ MBEDTLS_USE_PSA_CRYPTO := by
  decide

theorem eval_mono {s t : FlagSet} (hsub : ∀ f ∈ s, f ∈ t)
    (hpsa : MBEDTLS_USE_PSA_CRYPTO ∈ s ↔ MBEDTLS_USE_PSA_CRYPTO ∈ t) :
    ∀ p : Pred, negOnlyUse p = true → p.eval s = true → p.eval t = true := by
  intro p
  induction p with
  | flag f =>
      intro _ h
      simp only [Pred.eval, decide_eq_true_eq] at h ⊢
      exact hsub f h
  | and p q ihp ihq =>
      intro hneg h
      simp only [negOnlyUse, Bool.and_eq_true] at hneg
      simp only [Pred.eval, Bool.and_eq_true] at h ⊢
      exact ⟨ihp hneg.1 h.1, ihq hneg.2 h.2⟩
  | or p q ihp ihq =>
      intro hneg h
      simp only [negOnlyUse, Bool.and_eq_true] at hneg
      simp only [Pred.eval, Bool.or_eq_true] at h ⊢
      rcases h with h | h
      · exact Or.inl (ihp hneg.1 h)
      · exact Or.inr (ihq hneg.2 h)
  | not p ih =>
      intro hneg h
      have hp : p = .flag MBEDTLS_USE_PSA_CRYPTO := of_decide_eq_true hneg
      subst hp
      simp only [Pred.eval, Bool.not_eq_true', decide_eq_false_iff_not] at h ⊢
      exact fun ht => h (hpsa.mpr ht)

/-! ### Closedness of the fixed point -/

theorem mem_of_pass_fix :
    ∀ L : List Rule, ∀ {s : FlagSet}, pass L s = s →
      ∀ r ∈ L, r.pred.eval s = true → r.concl ∈ s := by
  intro L
  induction L with
  | nil => intro s _ r hr; exact absurd hr (List.not_mem_nil r)
  | cons r0 L ih =>
      intro s hfix r hr he
      have hmem : ∀ f ∈ applyRule s r0, f ∈ s := by
        intro f hf
        have : f ∈ pass (r0 :: L) s := by
          rw [pass_cons]
          exact mem_pass_of_mem L hf
        rw [hfix] at this
        exact this
      have heq : applyRule s r0 = s := by
        rcases applyRule_eq_or s r0 with h | ⟨_, hn, h⟩
        · exact h
        · exact absurd (hmem r0.concl (h ▸ List.mem_cons_self _ _)) hn
      rcases List.mem_cons.mp hr with hr0 | hrL
      · subst hr0
        by_contra hn
        have := applyRule_fires he hn
        rw [heq] at this
        exact absurd this.symm (List.cons_ne_self _ _)
      · have hfix' : pass L s = s := by
          rw [pass_cons, heq] at hfix
          exact hfix
        exact ih hfix' r hrL he

theorem resolveList_closed (L : List Rule) (b : FlagSet) :
    ∀ r ∈ L, r.pred.eval (resolveList L b) = true → r.concl ∈ resolveList L b :=
  mem_of_pass_fix L (pass_resolveList L b)

/-! ### Leastness: the fixed point is contained in every closed superset
that agrees with the base set on `MBEDTLS_USE_PSA_CRYPTO` -/

theorem applyRule_least {t : FlagSet}
    (hcl : ∀ r ∈ rules, r.pred.eval t = true → r.concl ∈ t)
    {s : FlagSet} (hsub : ∀ f ∈ s, f ∈ t)
    (hpsa : MBEDTLS_USE_PSA_CRYPTO ∈ s ↔ MBEDTLS_USE_PSA_CRYPTO ∈ t)
    {r : Rule} (hr : r ∈ rules) :
    ∀ f ∈ applyRule s r, f ∈ t := by
  intro f hf
  rcases mem_applyRule_inv hf with h | ⟨hfc, he⟩
  · exact hsub f h
  · subst hfc
    exact hcl r hr (eval_mono hsub hpsa r.pred (rules_negOnlyUse r hr) he)

theorem pass_least {t : FlagSet}
    (hcl : ∀ r ∈ rules, r.pred.eval t = true → r.concl ∈ t) :
    ∀ L : List Rule, (∀ r ∈ L, r ∈ rules) →
      ∀ {s : FlagSet}, (∀ f ∈ s, f ∈ t) →
        (MBEDTLS_USE_PSA_CRYPTO ∈ s ↔ MBEDTLS_USE_PSA_CRYPTO ∈ t) →
        ∀ f ∈ pass L s, f ∈ t := by
  intro L
  induction L with
  | nil => intro _ s hsub _ f hf; exact hsub f hf
  | cons r0 L ih =>
      intro hL s hsub hpsa f hf
      rw [pass_cons] at hf
      have hr0 : r0 ∈ rules := hL r0 (List.mem_cons_self _ _)
      have hsub' : ∀ g ∈ applyRule s r0, g ∈ t :=
        applyRule_least hcl hsub hpsa hr0
      have hpsa' :
          MBEDTLS_USE_PSA_CRYPTO ∈ applyRule s r0 ↔
            MBEDTLS_USE_PSA_CRYPTO ∈ t := by
        rw [mem_applyRule_frame (usePsa_not_concl r0 hr0)]
        exact hpsa
      exact ih (fun r hr => hL r (List.mem_cons_of_mem _ hr)) hsub' hpsa' f hf

theorem resolveAux_least {t : FlagSet}
    (hcl : ∀ r ∈ rules, r.pred.eval t = true → r.concl ∈ t)
    {L : List Rule} (hL : ∀ r ∈ L, r ∈ rules) :
    ∀ n : Nat, ∀ {s : FlagSet}, (∀ f ∈ s, f ∈ t) →
      (MBEDTLS_USE_PSA_CRYPTO ∈ s ↔ MBEDTLS_USE_PSA_CRYPTO ∈ t) →
      ∀ f ∈ resolveAux L n s, f ∈ t := by
  intro n
  induction n with
  | zero => intro s hsub _ f hf; exact hsub f hf
  | succ n ih =>
      intro s hsub hpsa f hf
      simp only [resolveAux] at hf
      by_cases hl : (pass L s).length = s.length
      · rw [if_pos hl] at hf
        exact hsub f hf
      · rw [if_neg hl] at hf
        have hsub' : ∀ g ∈ pass L s, g ∈ t := pass_least hcl L hL hsub hpsa
        have hpsa' :
            MBEDTLS_USE_PSA_CRYPTO ∈ pass L s ↔
              MBEDTLS_USE_PSA_CRYPTO ∈ t := by
          rw [mem_pass_frame L
            (fun r hr => usePsa_not_concl r (hL r hr)) s]
          exact hpsa
        exact ih hsub' hpsa' f hf

theorem resolveList_least {t : FlagSet}
    (hcl : ∀ r ∈ rules, r.pred.eval t = true → r.concl ∈ t)
    {L : List Rule} (hL : ∀ r ∈ L, r ∈ rules)
    {b : FlagSet} (hb : ∀ f ∈ b, f ∈ t)
    (hpsa : MBEDTLS_USE_PSA_CRYPTO ∈ b ↔ MBEDTLS_USE_PSA_CRYPTO ∈ t) :
    ∀ f ∈ resolveList L b, f ∈ t :=
  resolveAux_least hcl hL maxPasses hb hpsa

/-! ### Inversion: every activated flag was concluded by some rule whose
predicate holds at the final set -/

theorem mem_pass_inv :
    ∀ L : List Rule, ∀ {s : FlagSet} {f : Flag}, f ∈ pass L s →
      f ∈ s ∨ ∃ r ∈ L, r.concl = f ∧
        ∃ u : FlagSet, (∀ g ∈ s, g ∈ u) ∧ (∀ g ∈ u, g ∈ pass L s) ∧
          r.pred.eval u = true := by
  intro L
  induction L with
  | nil => intro s f hf; exact Or.inl hf
  | cons r0 L ih =>
      intro s f hf
      rw [pass_cons] at hf
      rcases ih hf with h | ⟨r, hr, hc, u, hu1, hu2, hu3⟩
      · rcases mem_applyRule_inv h with h' | ⟨hfc, he⟩
        · exact Or.inl h'
        · refine Or.inr ⟨r0, List.mem_cons_self _ _, hfc.symm, s, fun g hg => hg,
            ?_, he⟩
          intro g hg
          rw [pass_cons]
          exact mem_pass_of_mem L (mem_applyRule_of_mem hg)
      · refine Or.inr ⟨r, List.mem_cons_of_mem _ hr, hc, u,
          fun g hg => hu1 g (mem_applyRule_of_mem hg), ?_, hu3⟩
        intro g hg
        rw [pass_cons]
        exact hu2 g hg

theorem mem_resolveAux_inv (L : List Rule) :
    ∀ n : Nat, ∀ {s : FlagSet} {f : Flag}, f ∈ resolveAux L n s →
      f ∈ s ∨ ∃ r ∈ L, r.concl = f ∧
        ∃ u : FlagSet, (∀ g ∈ s, g ∈ u) ∧ (∀ g ∈ u, g ∈ resolveAux L n s) ∧
          r.pred.eval u = true := by
  intro n
  induction n with
  | zero => intro s f hf; exact Or.inl hf
  | succ n ih =>
      intro s f hf
      simp only [resolveAux] at hf ⊢
      by_cases hl : (pass L s).length = s.length
      · rw [if_pos hl] at hf
        exact Or.inl hf
      · rw [if_neg hl] at hf ⊢
        rcases ih hf with h | ⟨r, hr, hc, u, hu1, hu2, hu3⟩
        · rcases mem_pass_inv L h with h' | ⟨r, hr, hc, u, hu1, hu2, hu3⟩
          · exact Or.inl h'
          · exact Or.inr ⟨r, hr, hc, u, hu1,
              fun g hg => mem_resolveAux_of_mem L n (hu2 g hg), hu3⟩
        · exact Or.inr ⟨r, hr, hc, u,
            fun g hg => hu1 g (mem_pass_of_mem L hg), hu2, hu3⟩

/-- Every flag active after resolution is either in the base set or the
consequent of some rule whose predicate holds at the resolved set. -/
theorem mem_resolveList_inv {L : List Rule} (hL : ∀ r ∈ L, r ∈ rules)
    {b : FlagSet} {f : Flag} (hf : f ∈ resolveList L b) :
    f ∈ b ∨ ∃ r ∈ L, r.concl = f ∧ r.pred.eval (resolveList L b) = true := by
  rcases mem_resolveAux_inv L maxPasses hf with h | ⟨r, hr, hc, u, hu1, hu2, hu3⟩
  · exact Or.inl h
  · refine Or.inr ⟨r, hr, hc, ?_⟩
    have hpsaU :
        MBEDTLS_USE_PSA_CRYPTO ∈ u ↔
          MBEDTLS_USE_PSA_CRYPTO ∈ resolveList L b := by
      have hframe :
          MBEDTLS_USE_PSA_CRYPTO ∈ resolveList L b ↔
            MBEDTLS_USE_PSA_CRYPTO ∈ b :=
        mem_resolveAux_frame L (fun r' hr' => usePsa_not_concl r' (hL r' hr'))
          maxPasses b
      constructor
      · intro hu
        exact hu2 _ hu
      · intro hres
        exact hu1 _ (hframe.mp hres)
    exact eval_mono hu2 hpsaU r.pred (rules_negOnlyUse r (hL r hr)) hu3

/-- Every flag active after resolution is either in the base set or the
consequent of some rule of the table. -/
theorem mem_resolve_inv {b : FlagSet} {f : Flag} (hf : f ∈ resolve b) :
    f ∈ b ∨ ∃ r ∈ rules, r.concl = f ∧ r.pred.eval (resolve b) = true :=
  mem_resolveList_inv (fun _ hr => hr) hf

/-! ### Flag-name validation (spec §6 and §7) -/

/-- Modelled from the spec: the string name of each flag of the known
vocabulary (spec §3: a flag's name is a string, unique). -/
def flagName : Flag → String
  | MBEDTLS_MD_C => "MBEDTLS_MD_C"
  | MBEDTLS_MD_LIGHT => "MBEDTLS_MD_LIGHT"
  | MBEDTLS_ECJPAKE_C => "MBEDTLS_ECJPAKE_C"
  | MBEDTLS_PEM_PARSE_C => "MBEDTLS_PEM_PARSE_C"
  | MBEDTLS_ENTROPY_C => "MBEDTLS_ENTROPY_C"
  | MBEDTLS_PK_C => "MBEDTLS_PK_C"
  | MBEDTLS_PKCS12_C => "MBEDTLS_PKCS12_C"
  | MBEDTLS_RSA_C => "MBEDTLS_RSA_C"
  | MBEDTLS_SSL_TLS_C => "MBEDTLS_SSL_TLS_C"
  | MBEDTLS_X509_USE_C => "MBEDTLS_X509_USE_C"
  | MBEDTLS_X509_CREATE_C => "MBEDTLS_X509_CREATE_C"
  | MBEDTLS_ECP_C => "MBEDTLS_ECP_C"
  | MBEDTLS_PK_PARSE_EC_EXTENDED => "MBEDTLS_PK_PARSE_EC_EXTENDED"
  | MBEDTLS_PK_PARSE_EC_COMPRESSED => "MBEDTLS_PK_PARSE_EC_COMPRESSED"
  | MBEDTLS_PSA_BUILTIN_KEY_TYPE_ECC_KEY_PAIR_DERIVE =>
      "MBEDTLS_PSA_BUILTIN_KEY_TYPE_ECC_KEY_PAIR_DERIVE"
  | MBEDTLS_ECP_LIGHT => "MBEDTLS_ECP_LIGHT"
  | MBEDTLS_PK_PARSE_C => "MBEDTLS_PK_PARSE_C"
  | MBEDTLS_USE_PSA_CRYPTO => "MBEDTLS_USE_PSA_CRYPTO"
  | PSA_WANT_ALG_ECDH => "PSA_WANT_ALG_ECDH"
  | MBEDTLS_ECDH_C => "MBEDTLS_ECDH_C"
  | MBEDTLS_CAN_ECDH => "MBEDTLS_CAN_ECDH"
  | MBEDTLS_ECDSA_C => "MBEDTLS_ECDSA_C"
  | PSA_WANT_ALG_ECDSA => "PSA_WANT_ALG_ECDSA"
  | PSA_WANT_KEY_TYPE_ECC_KEY_PAIR_BASIC => "PSA_WANT_KEY_TYPE_ECC_KEY_PAIR_BASIC"
  | PSA_WANT_KEY_TYPE_ECC_PUBLIC_KEY => "PSA_WANT_KEY_TYPE_ECC_PUBLIC_KEY"
  | MBEDTLS_PK_CAN_ECDSA_SIGN => "MBEDTLS_PK_CAN_ECDSA_SIGN"
  | MBEDTLS_PK_CAN_ECDSA_VERIFY => "MBEDTLS_PK_CAN_ECDSA_VERIFY"
  | MBEDTLS_PK_CAN_ECDSA_SOME => "MBEDTLS_PK_CAN_ECDSA_SOME"
  | MBEDTLS_PSA_CRYPTO_C => "MBEDTLS_PSA_CRYPTO_C"
  | MBEDTLS_PSA_CRYPTO_CLIENT => "MBEDTLS_PSA_CRYPTO_CLIENT"
  | MBEDTLS_PK_WRITE_C => "MBEDTLS_PK_WRITE_C"
  | MBEDTLS_PK_HAVE_ECC_KEYS => "MBEDTLS_PK_HAVE_ECC_KEYS"

/-- Modelled from the spec: look a caller-supplied name up in the known
vocabulary (spec §6: input flags are named by strings from the known
vocabulary). -/
def flagOfName (n : String) : Option Flag :=
  allFlags.find? (fun f => flagName f == n)

/-- Modelled from the spec: validation of the caller's base set (spec §7:
a name outside the known vocabulary is detected at construction or
validation time and surfaced as a configuration error, never silently
dropped).  The construction/validation phase is not part of the source
header, which only holds the rule table. -/
def validateBase (names : List String) : Except String FlagSet :=
  match names with
  | [] => .ok []
  | n :: rest =>
    match flagOfName n with
    | none => .error n
    | some f =>
      match validateBase rest with
      | .error e => .error e
      | .ok s => .ok (f :: s)

/-! ### The claims -/

/-- C1: for every base flag set, the output of `resolve` is exactly the
closure of the base set under the rule table: the base set is contained
in the output, the output is closed under every rule, every active
output flag is in the base set or the consequent of some rule, and the
output is contained in every rule-closed superset of the base set that
agrees with the base set on all flags no rule concludes — so a flag is
active iff it is in the base set or implied, directly or transitively,
by a chain of rules applied to the base set, and no other flag is
active. -/
theorem resolve_is_closure (b : FlagSet) :
    (∀ f ∈ b, f ∈ resolve b) ∧
    (∀ r ∈ rules, r.pred.eval (resolve b) = true → r.concl ∈ resolve b) ∧
    (∀ f ∈ resolve b, f ∈ b ∨ ∃ r ∈ rules, r.concl = f) ∧
    (∀ t : FlagSet, (∀ r ∈ rules, r.pred.eval t = true → r.concl ∈ t) →
      (∀ f ∈ b, f ∈ t) →
      (∀ f : Flag, (∀ r ∈ rules, r.concl ≠ f) → (f ∈ t ↔ f ∈ b)) →
      ∀ f ∈ resolve b, f ∈ t) := by
  refine ⟨fun f hf => mem_resolveList_of_mem hf, resolveList_closed rules b,
    ?_, ?_⟩
  · intro f hf
    rcases mem_resolve_inv hf with h | ⟨r, hr, hc, _⟩
    · exact Or.inl h
    · exact Or.inr ⟨r, hr, hc⟩
  · intro t hcl hbt hframe
    exact resolveList_least hcl (fun _ hr => hr) hbt
      ((hframe MBEDTLS_USE_PSA_CRYPTO usePsa_not_concl).symm)

/-- Concrete instantiation of `resolve_is_closure`: the resolution of
`[MBEDTLS_MD_C]` is contained in the closed superset
`[MBEDTLS_MD_LIGHT, MBEDTLS_MD_C]`, checked at the member
`MBEDTLS_MD_LIGHT`. -/
theorem resolve_is_closure_example :
    MBEDTLS_MD_LIGHT ∈ ([MBEDTLS_MD_LIGHT, MBEDTLS_MD_C] : FlagSet) :=
  (resolve_is_closure [MBEDTLS_MD_C]).2.2.2
    [MBEDTLS_MD_LIGHT, MBEDTLS_MD_C] (by decide) (by decide) (by decide)
    MBEDTLS_MD_LIGHT (by decide)

/-- C2: resolving the base set containing exactly `MBEDTLS_PSA_CRYPTO_C`
and `MBEDTLS_RSA_C` activates `MBEDTLS_PK_C` (rule at lines 132–136) and
`MBEDTLS_MD_LIGHT` (rule at lines 47–57, whose predicate reads
`MBEDTLS_PK_C`): the two-rule chain resolves fully. -/
theorem transitive_chain_pk_md :
    MBEDTLS_PK_C ∈ resolve [MBEDTLS_PSA_CRYPTO_C, MBEDTLS_RSA_C] ∧
    MBEDTLS_MD_LIGHT ∈ resolve [MBEDTLS_PSA_CRYPTO_C, MBEDTLS_RSA_C] := by
  decide

/-- C3: resolution is order-independent — for every permutation of the
rule table and every base set, resolving with the permuted table yields
the same final flag set as resolving with the table in textual order
(in particular for the forward-referencing `MBEDTLS_ECP_LIGHT` and
`MBEDTLS_MD_LIGHT` rules). -/
theorem resolve_order_independent (L : List Rule) (hL : List.Perm L rules)
    (b : FlagSet) (f : Flag) : f ∈ resolveList L b ↔ f ∈ resolve b := by
  have hmemL : ∀ r ∈ L, r ∈ rules := fun r hr => hL.mem_iff.mp hr
  have hmemR : ∀ r ∈ rules, r ∈ L := fun r hr => hL.mem_iff.mpr hr
  have hLclosed : ∀ r ∈ rules,
      r.pred.eval (resolveList L b) = true → r.concl ∈ resolveList L b :=
    fun r hr he => resolveList_closed L b r (hmemR r hr) he
  have hpsaL : MBEDTLS_USE_PSA_CRYPTO ∈ resolveList L b ↔
      MBEDTLS_USE_PSA_CRYPTO ∈ b :=
    mem_resolveAux_frame L (fun r hr => usePsa_not_concl r (hmemL r hr))
      maxPasses b
  have hpsaR : MBEDTLS_USE_PSA_CRYPTO ∈ resolve b ↔
      MBEDTLS_USE_PSA_CRYPTO ∈ b :=
    mem_resolveAux_frame rules usePsa_not_concl maxPasses b
  constructor
  · intro hf
    exact resolveList_least (resolveList_closed rules b) hmemL
      (fun g hg => mem_resolveList_of_mem hg) hpsaR.symm f hf
  · intro hf
    exact resolveList_least hLclosed (fun _ hr => hr)
      (fun g hg => mem_resolveList_of_mem hg) hpsaL.symm f hf

/-- Concrete instantiation of `resolve_order_independent`: evaluating
the rule table in reversed order still activates
`MBEDTLS_ECP_LIGHT` from the base set
`[MBEDTLS_PK_PARSE_C, MBEDTLS_ECP_C]`. -/
theorem resolve_order_independent_example :
    MBEDTLS_ECP_LIGHT ∈
      resolveList rules.reverse [MBEDTLS_PK_PARSE_C, MBEDTLS_ECP_C] :=
  (resolve_order_independent rules.reverse (List.reverse_perm rules)
    [MBEDTLS_PK_PARSE_C, MBEDTLS_ECP_C] MBEDTLS_ECP_LIGHT).mpr (by decide)

/-- C4 counterexample: monotonicity fails as stated.  The base set
`[MBEDTLS_ECDH_C]` is contained in
`[MBEDTLS_ECDH_C, MBEDTLS_USE_PSA_CRYPTO]`, yet `MBEDTLS_CAN_ECDH` is
active in the resolution of the smaller set and inactive in the
resolution of the larger one, because the `MBEDTLS_CAN_ECDH` rule
(lines 93–96) negates `MBEDTLS_USE_PSA_CRYPTO`. -/
theorem resolve_not_monotone :
    ([MBEDTLS_ECDH_C] : FlagSet) ⊆
        ([MBEDTLS_ECDH_C, MBEDTLS_USE_PSA_CRYPTO] : FlagSet) ∧
    MBEDTLS_CAN_ECDH ∈ resolve [MBEDTLS_ECDH_C] ∧
    ¬ MBEDTLS_CAN_ECDH ∈ resolve [MBEDTLS_ECDH_C, MBEDTLS_USE_PSA_CRYPTO] := by
  refine ⟨?_, by decide, by decide⟩
  intro f hf
  rcases List.mem_singleton.mp hf with rfl
  decide

/-- C4 amended: monotonicity holds for every two base sets B1 ⊆ B2 that
agree on the negated flag `MBEDTLS_USE_PSA_CRYPTO`: every flag active in
`resolve B1` is then also active in `resolve B2`.  (The unrestricted
statement is refuted by the counterexample for this claim.) -/
theorem resolve_monotone {b1 b2 : FlagSet} (hsub : ∀ f ∈ b1, f ∈ b2)
    (hpsa : MBEDTLS_USE_PSA_CRYPTO ∈ b1 ↔ MBEDTLS_USE_PSA_CRYPTO ∈ b2) :
    ∀ f ∈ resolve b1, f ∈ resolve b2 :=
  resolveList_least (resolveList_closed rules b2) (fun _ hr => hr)
    (fun f hf => mem_resolveList_of_mem (hsub f hf))
    (hpsa.trans
      (mem_resolveAux_frame rules usePsa_not_concl maxPasses b2).symm)

/-- Concrete instantiation of `resolve_monotone`: enlarging the base set
`[MBEDTLS_ECDH_C]` with `PSA_WANT_ALG_ECDH` keeps `MBEDTLS_CAN_ECDH`
active. -/
theorem resolve_monotone_example :
    MBEDTLS_CAN_ECDH ∈ resolve [MBEDTLS_ECDH_C, PSA_WANT_ALG_ECDH] :=
  @resolve_monotone [MBEDTLS_ECDH_C] [MBEDTLS_ECDH_C, PSA_WANT_ALG_ECDH]
    (by decide) (by decide) MBEDTLS_CAN_ECDH (by decide)

/-- C5: resolution is idempotent — feeding the output of `resolve` back
in as a new base set returns the same flag set. -/
theorem resolve_idempotent (b : FlagSet) : resolve (resolve b) = resolve b :=
  resolveAux_of_fixedpoint rules (pass_resolveList rules b) maxPasses

/-- C6: the fixed-point iteration terminates within the defensive bound
of one pass more than the size of the flag vocabulary: the set reached
with `maxPasses` fuel is a fixed point of a full pass, and granting any
number of passes beyond `maxPasses` yields the same answer. -/
theorem resolve_terminating (b : FlagSet) :
    pass rules (resolve b) = resolve b ∧
    ∀ n : Nat, maxPasses ≤ n → resolveAux rules n b = resolve b :=
  ⟨pass_resolveList rules b,
   fun n hn => resolveAux_fuel rules maxPasses n b (maxPasses_big b) hn⟩

/-- Concrete instantiation of `resolve_terminating`: with 64 passes of
fuel the resolution of the empty base set equals `resolve []`, and
`resolve []` is a fixed point of a full pass. -/
theorem resolve_terminating_example :
    pass rules (resolve []) = resolve [] ∧
    resolveAux rules 64 [] = resolve [] :=
  ⟨(resolve_terminating []).1, (resolve_terminating []).2 64 (by decide)⟩

/-- C7: AND-predicate correctness — resolving the base set containing
exactly `MBEDTLS_PK_PARSE_C` and `MBEDTLS_ECP_C` activates
`MBEDTLS_PK_PARSE_EC_COMPRESSED` (conjunctive rule at lines 87–89), the
output contains exactly the base set plus its implied flags
(`MBEDTLS_ECP_LIGHT`, `MBEDTLS_PK_PARSE_EC_COMPRESSED`,
`MBEDTLS_PK_HAVE_ECC_KEYS`) and nothing else, and resolving
`MBEDTLS_PK_PARSE_C` alone leaves `MBEDTLS_PK_PARSE_EC_COMPRESSED`
inactive. -/
theorem and_rule_compressed :
    (∀ f : Flag, f ∈ resolve [MBEDTLS_PK_PARSE_C, MBEDTLS_ECP_C] ↔
      f ∈ ([MBEDTLS_PK_PARSE_C, MBEDTLS_ECP_C, MBEDTLS_ECP_LIGHT,
        MBEDTLS_PK_PARSE_EC_COMPRESSED, MBEDTLS_PK_HAVE_ECC_KEYS] :
          FlagSet)) ∧
    ¬ MBEDTLS_PK_PARSE_EC_COMPRESSED ∈ resolve [MBEDTLS_PK_PARSE_C] := by
  decide

/-- C8: a caller-supplied base set naming a flag outside the known
vocabulary is rejected by validation with a configuration error, not
silently ignored. -/
theorem unknown_flag_rejected (names : List String) (bad : String)
    (hmem : bad ∈ names) (hbad : flagOfName bad = none) :
    ∃ e : String, validateBase names = .error e := by
  induction names with
  | nil => exact absurd hmem (List.not_mem_nil bad)
  | cons n rest ih =>
      by_cases hn : flagOfName n = none
      · exact ⟨n, by simp [validateBase, hn]⟩
      · rcases List.mem_cons.mp hmem with h | h
        · exact absurd (h ▸ hbad) hn
        · obtain ⟨e, he⟩ := ih h
          obtain ⟨f, hf⟩ := Option.ne_none_iff_exists'.mp hn
          exact ⟨e, by simp [validateBase, hf, he]⟩

/-- Concrete instantiation of `unknown_flag_rejected`: the unknown name
`MBEDTLS_NOT_A_FLAG` is reported as an error. -/
theorem unknown_flag_rejected_example :
    ∃ e : String, validateBase ["MBEDTLS_NOT_A_FLAG"] = .error e :=
  unknown_flag_rejected ["MBEDTLS_NOT_A_FLAG"] "MBEDTLS_NOT_A_FLAG"
    (List.mem_singleton.mpr rfl) (by decide)

/-- The PSA configuration inputs the header reads but never defines. -/
def psaInputFlags : List Flag :=
  [MBEDTLS_USE_PSA_CRYPTO, PSA_WANT_ALG_ECDH, PSA_WANT_ALG_ECDSA,
   PSA_WANT_KEY_TYPE_ECC_KEY_PAIR_BASIC, PSA_WANT_KEY_TYPE_ECC_PUBLIC_KEY]

/-- C9: no rule concludes `MBEDTLS_USE_PSA_CRYPTO` or any `PSA_WANT_xxx`
flag — they are read by predicates only — so for every base set their
state in the output equals their state in the base set. -/
theorem psa_flags_preserved :
    (∀ r ∈ rules, ¬ r.concl ∈ psaInputFlags) ∧
    (∀ b : FlagSet, ∀ f ∈ psaInputFlags, (f ∈ resolve b ↔ f ∈ b)) := by
  have hconcl : ∀ r ∈ rules, ¬ r.concl ∈ psaInputFlags := by decide
  refine ⟨hconcl, ?_⟩
  intro b f hf
  exact mem_resolveAux_frame rules
    (fun r hr hc => hconcl r hr (hc ▸ hf)) maxPasses b

/-- Concrete instantiation of `psa_flags_preserved`:
`MBEDTLS_USE_PSA_CRYPTO` stays active exactly because it is in the base
set. -/
theorem psa_flags_preserved_example :
    MBEDTLS_USE_PSA_CRYPTO ∈ resolve [MBEDTLS_USE_PSA_CRYPTO] :=
  (psa_flags_preserved.2 [MBEDTLS_USE_PSA_CRYPTO] MBEDTLS_USE_PSA_CRYPTO
    (by decide)).mpr (by decide)

/-- C10 counterexample: the claim fails for a base set that explicitly
activates `MBEDTLS_PK_CAN_ECDSA_SIGN`: with `MBEDTLS_USE_PSA_CRYPTO`
inactive, the final states of `MBEDTLS_PK_CAN_ECDSA_SIGN` (active, from
the base set) and `MBEDTLS_PK_CAN_ECDSA_VERIFY` (inactive) differ, and
`MBEDTLS_PK_CAN_ECDSA_SIGN` is active although `MBEDTLS_ECDSA_C` is
not. -/
theorem pk_can_ecdsa_differ :
    ¬ MBEDTLS_USE_PSA_CRYPTO ∈ ([MBEDTLS_PK_CAN_ECDSA_SIGN] : FlagSet) ∧
    MBEDTLS_PK_CAN_ECDSA_SIGN ∈ resolve [MBEDTLS_PK_CAN_ECDSA_SIGN] ∧
    ¬ MBEDTLS_PK_CAN_ECDSA_VERIFY ∈ resolve [MBEDTLS_PK_CAN_ECDSA_SIGN] := by
  decide

/-- C10 amended: for every base set in which `MBEDTLS_USE_PSA_CRYPTO` is
inactive and which does not itself explicitly activate
`MBEDTLS_PK_CAN_ECDSA_SIGN` or `MBEDTLS_PK_CAN_ECDSA_VERIFY`, the two
capability flags have equal final states: each is active exactly when
`MBEDTLS_ECDSA_C` is active.  (The unrestricted statement is refuted by
the counterexample for this claim.) -/
theorem pk_can_ecdsa_agree (b : FlagSet)
    (h1 : ¬ MBEDTLS_USE_PSA_CRYPTO ∈ b)
    (h2 : ¬ MBEDTLS_PK_CAN_ECDSA_SIGN ∈ b)
    (h3 : ¬ MBEDTLS_PK_CAN_ECDSA_VERIFY ∈ b) :
    (MBEDTLS_PK_CAN_ECDSA_SIGN ∈ resolve b ↔ MBEDTLS_ECDSA_C ∈ b) ∧
    (MBEDTLS_PK_CAN_ECDSA_VERIFY ∈ resolve b ↔ MBEDTLS_ECDSA_C ∈ b) := by
  have husepsa : ¬ MBEDTLS_USE_PSA_CRYPTO ∈ resolve b := fun h =>
    h1 ((mem_resolveAux_frame rules usePsa_not_concl maxPasses b).mp h)
  have hecdsaFrame : MBEDTLS_ECDSA_C ∈ resolve b ↔ MBEDTLS_ECDSA_C ∈ b :=
    mem_resolveAux_frame rules (by decide) maxPasses b
  have hback : MBEDTLS_ECDSA_C ∈ b →
      MBEDTLS_PK_CAN_ECDSA_SIGN ∈ resolve b ∧
        MBEDTLS_PK_CAN_ECDSA_VERIFY ∈ resolve b := by
    intro he
    have hev : Pred.eval (resolve b)
        (.and (.not (.flag MBEDTLS_USE_PSA_CRYPTO))
          (.flag MBEDTLS_ECDSA_C)) = true := by
      simp only [Pred.eval, Bool.and_eq_true, Bool.not_eq_true',
        decide_eq_false_iff_not, decide_eq_true_eq]
      exact ⟨husepsa, mem_resolveList_of_mem he⟩
    exact ⟨resolveList_closed rules b
        ⟨.and (.not (.flag MBEDTLS_USE_PSA_CRYPTO)) (.flag MBEDTLS_ECDSA_C),
          MBEDTLS_PK_CAN_ECDSA_SIGN⟩ (by decide) hev,
      resolveList_closed rules b
        ⟨.and (.not (.flag MBEDTLS_USE_PSA_CRYPTO)) (.flag MBEDTLS_ECDSA_C),
          MBEDTLS_PK_CAN_ECDSA_VERIFY⟩ (by decide) hev⟩
  have hsignConcl : ∀ r ∈ rules, r.concl = MBEDTLS_PK_CAN_ECDSA_SIGN →
      r.pred = .and (.not (.flag MBEDTLS_USE_PSA_CRYPTO))
          (.flag MBEDTLS_ECDSA_C) ∨
        r.pred = .and (.flag MBEDTLS_USE_PSA_CRYPTO)
          (.and (.flag PSA_WANT_ALG_ECDSA)
            (.flag PSA_WANT_KEY_TYPE_ECC_KEY_PAIR_BASIC)) := by
    decide
  have hverifyConcl : ∀ r ∈ rules, r.concl = MBEDTLS_PK_CAN_ECDSA_VERIFY →
      r.pred = .and (.not (.flag MBEDTLS_USE_PSA_CRYPTO))
          (.flag MBEDTLS_ECDSA_C) ∨
        r.pred = .and (.flag MBEDTLS_USE_PSA_CRYPTO)
          (.and (.flag PSA_WANT_ALG_ECDSA)
            (.flag PSA_WANT_KEY_TYPE_ECC_PUBLIC_KEY)) := by
    decide
  constructor
  · constructor
    · intro hf
      rcases mem_resolve_inv hf with h | ⟨r, hr, hc, hev⟩
      · exact absurd h h2
      · rcases hsignConcl r hr hc with hp | hp
        · rw [hp] at hev
          simp only [Pred.eval, Bool.and_eq_true, Bool.not_eq_true',
            decide_eq_false_iff_not, decide_eq_true_eq] at hev
          exact hecdsaFrame.mp hev.2
        · rw [hp] at hev
          simp only [Pred.eval, Bool.and_eq_true, decide_eq_true_eq] at hev
          exact absurd hev.1 husepsa
    · exact fun he => (hback he).1
  · constructor
    · intro hf
      rcases mem_resolve_inv hf with h | ⟨r, hr, hc, hev⟩
      · exact absurd h h3
      · rcases hverifyConcl r hr hc with hp | hp
        · rw [hp] at hev
          simp only [Pred.eval, Bool.and_eq_true, Bool.not_eq_true',
            decide_eq_false_iff_not, decide_eq_true_eq] at hev
          exact hecdsaFrame.mp hev.2
        · rw [hp] at hev
          simp only [Pred.eval, Bool.and_eq_true, decide_eq_true_eq] at hev
          exact absurd hev.1 husepsa
    · exact fun he => (hback he).2

/-- Concrete instantiation of `pk_can_ecdsa_agree`: with base set
`[MBEDTLS_ECDSA_C]` the sign capability is derived. -/
theorem pk_can_ecdsa_agree_example :
    MBEDTLS_PK_CAN_ECDSA_SIGN ∈ resolve [MBEDTLS_ECDSA_C] :=
  (pk_can_ecdsa_agree [MBEDTLS_ECDSA_C] (by decide) (by decide)
    (by decide)).1.mpr (by decide)

end ConfigAdjust
